import Mathlib

/-!
Shallow embedding of the documentation-generation tooling of this repository.

Two scripts carry all of the locally implemented logic:

* `build-py-docs.py` — an mkdocs hook that clones the Python SDK, discovers its
  modules, writes one Markdown stub per module and derives a nested navigation
  structure from the dotted module names (`discover_modules`,
  `find_container_modules`, `generate_doc_file`, `is_base_class`, `build_nav`,
  `on_pre_build`).
* `scripts/api-generation-python.py` — a pydoc-markdown driver that writes one
  `.mdx` file per public module and escapes opening braces (`generate_docs`).

Python strings are modelled as `List Char` (`Str` below), so that splitting on
a separator, joining, prefix tests and lexicographic comparison are all
structurally recursive functions amenable to proof.  The Python comparison
of strings (by code point) coincides with lexicographic comparison of the
character lists.  Filesystem paths are modelled as lists of path components.
-/

/-- Python strings, modelled as their list of characters. -/
abbrev Str := List Char

/-! ## Splitting and joining on a separator

Splitting a module name on dots and joining parts with dots, as the source
does, are modelled by `splitOnDot` and `joinDot`.  `splitOnDot` follows the
Python str.split semantics with a one-character separator: the empty string
splits to a list holding one empty piece, and a leading or doubled separator
yields empty pieces. -/

/-- Split a character list at every occurrence of the separator `sep`;
the result is always nonempty and its pieces never contain `sep`. -/
def splitOnSep (sep : Char) : Str → List Str
  | [] => [[]]
  | c :: rest =>
    if c = sep then [] :: splitOnSep sep rest
    else
      match splitOnSep sep rest with
      | [] => [[c]]
      | p :: ps => (c :: p) :: ps

/-- Join a list of pieces, placing the separator `sep` between them
(Python `sep.join(pieces)`). -/
def joinSep (sep : Char) : List Str → Str
  | [] => []
  | [p] => p
  | p :: q :: ps => p ++ sep :: joinSep sep (q :: ps)

/-- Splitting a dotted module name into its parts, as the source does. -/
def splitOnDot (s : Str) : List Str := splitOnSep '.' s

/-- Joining parts with dots into a dotted module name, as the source does. -/
def joinDot (ps : List Str) : Str := joinSep '.' ps

/-! ## Lexicographic order on modelled strings

Python compares strings lexicographically by code point; `sorted` uses this
order.  `strLe` is that comparison on the character-list model. -/

/-- Python string comparison `a <= b` (lexicographic by code point). -/
def strLe : Str → Str → Bool
  | [], _ => true
  | _ :: _, [] => false
  | a :: as, b :: bs => if a < b then true else if b < a then false else strLe as bs

/-! ## build-py-docs.py — embedded definitions

Module names are dotted strings; output paths are lists of path components
(relative to the category directory unless stated otherwise). -/

/-- The last component of a dotted name: the final element of its parts. -/
def lastName (s : Str) : Str := (splitOnDot s).getLastD []

/-- The Python rstrip of the letter s: remove every trailing s character. -/
def rstripS (s : Str) : Str :=
  (List.dropWhile (fun c => c = 's') s.reverse).reverse

/-- `is_base_class(child_name, parent_name)` from build-py-docs.py:
child matches parent exactly, matches parent with its trailing s characters
stripped, or parent equals child with one s appended. -/
def is_base_class (child_name parent_name : Str) : Bool :=
  decide (child_name = parent_name) ||
    decide (child_name = rstripS parent_name) ||
    decide (child_name ++ ['s'] = parent_name)

/-- Python `word.capitalize()` (ASCII): upper-case the first character,
lower-case the rest. -/
def capitalize (w : Str) : Str :=
  match w with
  | [] => []
  | c :: rest => c.toUpper :: rest.map Char.toLower

/-- `get_display_name` from build-py-docs.py. -/
def get_display_name (module_name : Str) : Str :=
  joinSep ' ' ((splitOnSep '_' module_name).map capitalize)

/-- The container candidates contributed by one `module` in the loop body of
`find_container_modules`: for each `i` in `range(2, len(parts))` the dotted
name joining the first i + 1 parts with dots, kept when it differs from
`main_module`, is not
itself a member of `modules`, and has strictly more than one member of
`modules` below it. -/
def containerCandidates (modules : List Str) (main_module : Str)
    (module : Str) : List Str :=
  let parts := splitOnDot module
  if 2 < parts.length then
    (List.range' 2 (parts.length - 2)).filterMap (fun i =>
      let container := joinDot (parts.take (i + 1))
      if container ≠ main_module ∧ container ∉ modules ∧
          1 < (modules.filter
            (fun m => (container ++ ['.']).isPrefixOf m)).length then
        some container
      else none)
  else []

/-- `find_container_modules` from build-py-docs.py: the set of candidates
collected over all modules, returned as a sorted list (`sorted(containers)`
over a Python set; since the order is total and antisymmetric and the set has
no duplicates the sorted list is unique, so any sorting algorithm models it). -/
def find_container_modules (modules : List Str) (main_module : Str) : List Str :=
  List.insertionSort (fun a b => strLe a b = true)
    ((modules.flatMap (containerCandidates modules main_module)).dedup)

/-- The four content lines assembled by `generate_doc_file`. -/
def doc_file_lines (module : Str) : List Str :=
  ["::: ".data ++ module, "    options:".data, "      heading_level: 1".data,
    "      members: true".data]

/-- The text written by `generate_doc_file`: the content lines joined by
newlines, plus a trailing newline. -/
def doc_file_content (module : Str) : Str :=
  joinSep '\n' (doc_file_lines module) ++ ['\n']

/-- `generate_doc_file(module, output_path)` modelled as the produced
(path, file content) pair. -/
def generate_doc_file (module : Str) (output_path : List Str) :
    List Str × Str :=
  (output_path, doc_file_content module)

/-- Outcome of `importlib.import_module` for one module: success, an
`ImportError` (caught by `discover_modules`), or any other exception
(uncaught, aborts the walk). -/
inductive ImportOutcome where
  | ok
  | importError
  | otherError
  deriving DecidableEq

/-- The suffix removal applied by the source to a file name that matched the
py glob: drop the trailing three characters dot p y, unless the name is just
those three characters (then Python treats the name as suffix-free and keeps
it). -/
def stripPyExt (name : Str) : Str :=
  if ".py".data.isSuffixOf name ∧ 3 < name.length then
    name.take (name.length - 3)
  else name

/-- The dotted module name derived from a file path (components relative to
the parent of the SDK path): strip the py suffix from the file name and join
the path components with dots, as the source does by replacing every slash
of the suffix-free relative path with a dot. -/
def moduleOfRel (rel_path : List Str) : Str :=
  joinDot (rel_path.dropLast ++ [stripPyExt (rel_path.getLastD [])])

/-- `discover_modules` from build-py-docs.py over the list of py files found
by the recursive glob (as component paths relative to the parent of the SDK
path).  Files whose name starts with an underscore are skipped; the module
is appended whether importing succeeds or raises an ImportError; any other
exception propagates. -/
def discover_modules :
    List (List Str) → (Str → ImportOutcome) → Except Unit (List Str)
  | [], _ => .ok []
  | f :: fs, imp =>
    if (f.getLastD []).head? = some '_' then discover_modules fs imp
    else
      let module := moduleOfRel f
      match imp module with
      | .ok => (discover_modules fs imp).map (module :: ·)
      | .importError => (discover_modules fs imp).map (module :: ·)
      | .otherError => .error ()

/-- Keys of a Python dict in insertion order: first occurrence wins. -/
def dedupFirst (l : List Str) : List Str :=
  l.foldl (fun acc a => if a ∈ acc then acc else acc ++ [a]) []

/-- The immediate-child key used to group modules in `build_nav`: the first
parent depth plus one parts, joined with dots. -/
def childKeyOf (parent_depth : Nat) (m : Str) : Str :=
  joinDot ((splitOnDot m).take (parent_depth + 1))

/-- The keys of the `groups` dict built by `build_nav`. -/
def groupKeys (modules : List Str) (parent_depth : Nat) : List Str :=
  dedupFirst ((modules.filter
    (fun m => parent_depth < (splitOnDot m).length)).map
      (childKeyOf parent_depth))

/-- The entry `groups[key]` of the dict built by `build_nav`. -/
def groupModules (modules : List Str) (parent_depth : Nat) (key : Str) :
    List Str :=
  (modules.filter (fun m => parent_depth < (splitOnDot m).length)).filter
    (fun m => childKeyOf parent_depth m = key)

/-- First component of `sort_key` in `build_nav`: `0` for base-class-like
child names, `1` otherwise. -/
def keyFlag (parent_name key : Str) : Nat :=
  if is_base_class (lastName key) parent_name = true then 0 else 1

/-- Comparison of two child keys under `sort_key(key) = (flag, child_name)`
(Python tuples compare lexicographically). -/
def keyLe (parent_name a b : Str) : Bool :=
  decide (keyFlag parent_name a < keyFlag parent_name b) ||
    (decide (keyFlag parent_name a = keyFlag parent_name b) &&
      strLe (lastName a) (lastName b))

/-- `sorted(groups.keys(), key=sort_key)` in `build_nav`: the order in which
the child entries of `parent_module` are emitted. -/
def sortedChildKeys (modules : List Str) (parent_module : Str) : List Str :=
  List.insertionSort (fun a b => keyLe (lastName parent_module) a b = true)
    (groupKeys modules (splitOnDot parent_module).length)

/-- A navigation entry: `Nav.link title path` models the dict
`(display_name: path)` and `Nav.sect title items` models
`(display_name: [...])`. -/
inductive Nav where
  | link : Str → Str → Nav
  | sect : Str → List Nav → Nav

/-- One step of `build_nav`, with explicit fuel for the recursion on
grandchildren (each recursive call passes grandchildren whose part count
strictly exceeds the new parent depth, so the recursion depth is bounded by
the largest part count; `build_nav` below supplies more fuel than that). -/
def build_nav_fuel :
    Nat → List Str → Str → Str → List Str → List Nav
  | 0, _, _, _, _ => []
  | fuel + 1, modules, base_path, parent_module, actual_modules =>
    (sortedChildKeys modules parent_module).map (fun child_key =>
      let parent_depth := (splitOnDot parent_module).length
      let child_modules := groupModules modules parent_depth child_key
      let parts := splitOnDot child_key
      let relative_path := joinSep '/' (parts.drop 2)
      let display_name := get_display_name (lastName child_key)
      let grandchildren := child_modules.filter (fun m => ¬m = child_key)
      if grandchildren = [] then
        .link display_name (base_path ++ '/' :: relative_path ++ ".md".data)
      else
        let child_nav :=
          build_nav_fuel fuel grandchildren base_path child_key actual_modules
        if child_key ∈ actual_modules then
          .sect display_name
            (.link display_name
              (base_path ++ '/' :: relative_path ++ "/index.md".data)
              :: child_nav)
        else
          .sect display_name child_nav)

/-- Total number of dotted parts over all modules; exceeds every possible
recursion depth of `build_nav`. -/
def totalParts (modules : List Str) : Nat :=
  (modules.map (fun m => (splitOnDot m).length)).sum

/-- `build_nav` from build-py-docs.py. -/
def build_nav (modules : List Str) (base_path parent_module : Str)
    (actual_modules : List Str) : List Nav :=
  build_nav_fuel (totalParts modules + 1) modules base_path parent_module
    actual_modules

/-! ## on_pre_build — embedded model

`on_pre_build` is modelled as a state transformer: the environment supplies
the outcome of the two subprocess steps (`git clone`, `pip install`), the
files found under the clone and the behaviour of module imports; the result
records the log events, the doc files written (paths relative to the output
directory), the category order of the updated navigation, the final value of
`sys.path`, whether the `finally` cleanup ran, and whether an exception
propagated out of the call. -/

/-- Result of a `subprocess.run(..., check=True)` call: success, or a
`CalledProcessError` raised and caught by `on_pre_build`. -/
inductive StepResult where
  | ok
  | calledProcessError
  deriving DecidableEq

/-- The print events of `on_pre_build` that the claims refer to. -/
inductive LogEvent where
  | cloneOk
  | cloneFailed
  | pipOk
  | pipFailed
  | noModules
  | navUpdated
  deriving DecidableEq

/-- The environment a run of `on_pre_build` interacts with. -/
structure Env where
  cloneResult : StepResult
  pipResult : StepResult
  files : List (List Str)
  imp : Str → ImportOutcome

/-- The observable outcome of a run of `on_pre_build`. -/
structure Outcome where
  logs : List LogEvent
  written : List (Str × List Str)
  navCategories : Option (List Str)
  sysPathFinal : List Str
  finalCleanupRan : Bool
  raised : Bool
  deriving DecidableEq

/-- The src directory under the temporary clone directory, the entry that
`on_pre_build` inserts into the Python path. -/
def sdkSrcPath : Str := "temp_python_sdk/src".data

/-- The leaf output path relative to the category directory, as path
components: the parts beyond the category, with the md extension appended to
the last one. -/
def leafPath (ps : List Str) : List Str :=
  ps.dropLast ++ [ps.getLastD [] ++ ".md".data]

/-- `children` as computed in the doc-generation loop of `on_pre_build`:
members of `all_modules` strictly below `module`. -/
def childrenIn (all_modules : List Str) (module : Str) : List Str :=
  all_modules.filter
    (fun m => (module ++ ['.']).isPrefixOf m && decide (¬m = module))

/-- The output path (relative to the category directory) chosen for `module`
by the doc-generation loop of `on_pre_build`, or `none` when the module is
skipped (a namespace-only container). -/
def docPath (all_modules actual_modules : List Str) (module : Str) :
    Option (List Str) :=
  let parts := splitOnDot module
  let children := childrenIn all_modules module
  if ¬children = [] ∧ module ∉ actual_modules then none
  else if parts.length = 2 then some ["index.md".data]
  else if ¬children = [] ∧ module ∈ actual_modules then
    some (parts.drop 2 ++ ["index.md".data])
  else if ¬children = [] then none
  else some (leafPath (parts.drop 2))

/-- The (module, output path) pairs written for one category by
`on_pre_build`, in loop order: `all_modules = module_list + containers`,
`actual_modules = set(module_list)`, paths relative to the category
directory. -/
def docOutputs (module_list : List Str) (main_module : Str) :
    List (Str × List Str) :=
  let containers := find_container_modules module_list main_module
  let all_modules := module_list ++ containers
  all_modules.filterMap (fun module =>
    (docPath all_modules module_list module).map (fun p => (module, p)))

/-- A module is a leaf of `module_list` when no member of the list lies
strictly below it. -/
def isLeaf (module_list : List Str) (module : Str) : Bool :=
  module_list.all (fun m => decide (¬(module ++ ['.']).isPrefixOf m = true))

/-- The category keys of the `categories` dict of `on_pre_build` (insertion
order): `parts[1]` of every module with at least two dotted parts. -/
def categoryKeys (modules : List Str) : List Str :=
  dedupFirst ((modules.filter (fun m => 2 ≤ (splitOnDot m).length)).map
    (fun m => (splitOnDot m).getD 1 []))

/-- `sorted(categories.keys())` in `on_pre_build`. -/
def sortedCategoryKeys (modules : List Str) : List Str :=
  List.insertionSort (fun a b => strLe a b = true) (categoryKeys modules)

/-- `categories[category]` in `on_pre_build`, in insertion order. -/
def categoryModules (modules : List Str) (category : Str) : List Str :=
  (modules.filter (fun m => 2 ≤ (splitOnDot m).length)).filter
    (fun m => (splitOnDot m).getD 1 [] = category)

/-- `main_module = f"strands.(category)"`. -/
def mainModuleOf (category : Str) : Str := "strands.".data ++ category

/-- One iteration of the category loop of `on_pre_build`, as it affects the
order of nav entries: `experimental` is held back, everything else is
appended. -/
def categoryNavStep (acc : List Str × Option Str) (category : Str) :
    List Str × Option Str :=
  if category = "experimental".data then (acc.1, some category)
  else (acc.1 ++ [category], acc.2)

/-- The category order of `nav_items` produced by `on_pre_build`:
the loop over sorted category keys followed by appending the withheld
`experimental` entry, if any. -/
def categoryNavOrder (keys : List Str) : List Str :=
  let r := keys.foldl categoryNavStep ([], none)
  match r.2 with
  | some c => r.1 ++ [c]
  | none => r.1

/-- `on_pre_build` from build-py-docs.py as a state transformer.  A clone
failure logs and returns before `sys.path` is touched; a pip failure logs and
continues; the `try/finally` around generation always restores `sys.path`
(remove of the first occurrence of the inserted entry) and removes the clone
directory, whether generation completes, returns early on an empty module
list, or propagates an exception from an import. -/
def on_pre_build (env : Env) (sysPath0 : List Str) : Outcome :=
  match env.cloneResult with
  | .calledProcessError =>
    { logs := [.cloneFailed], written := [], navCategories := none,
      sysPathFinal := sysPath0, finalCleanupRan := false, raised := false }
  | .ok =>
    let logs0 : List LogEvent :=
      match env.pipResult with
      | .ok => [.cloneOk, .pipOk]
      | .calledProcessError => [.cloneOk, .pipFailed]
    let sysPath1 := sdkSrcPath :: sysPath0
    match discover_modules env.files env.imp with
    | .error _ =>
      { logs := logs0, written := [], navCategories := none,
        sysPathFinal := sysPath1.erase sdkSrcPath, finalCleanupRan := true,
        raised := true }
    | .ok modules =>
      if modules = [] then
        { logs := logs0 ++ [.noModules], written := [], navCategories := none,
          sysPathFinal := sysPath1.erase sdkSrcPath, finalCleanupRan := true,
          raised := false }
      else
        let cats := sortedCategoryKeys modules
        let written := cats.flatMap (fun category =>
          (docOutputs (categoryModules modules category)
            (mainModuleOf category)).map (fun p => (p.1, category :: p.2)))
        { logs := logs0 ++ [.navUpdated], written := written,
          navCategories := some (categoryNavOrder cats),
          sysPathFinal := sysPath1.erase sdkSrcPath, finalCleanupRan := true,
          raised := false }

/-! ## scripts/api-generation-python.py — embedded model

`generate_docs` drives an external renderer (pydoc-markdown); the renderer is
a parameter.  Only the local logic is modelled: the skip rules, the
frontmatter assembly with `strip()`, the non-empty check and the escaping
performed before writing. -/

/-- Python `str.strip()` whitespace (ASCII subset used by CPython). -/
def isPyWs (c : Char) : Bool :=
  c = ' ' || c = '\t' || c = '\n' || c = '\r' || c = '\x0b' || c = '\x0c'

/-- Python `s.strip()`. -/
def stripWs (s : Str) : Str :=
  ((s.dropWhile isPyWs).reverse.dropWhile isPyWs).reverse

/-- Python `content.replace("\x7b", "\\\x7b")`: every opening brace gains a
preceding backslash. -/
def escapeBraces (s : Str) : Str :=
  s.flatMap (fun c => if c = '\x7b' then ['\\', '\x7b'] else [c])

/-- Python `content.replace("<A2A", "&gt;A2A")`, left-to-right and
non-overlapping, with explicit fuel so the scan is structurally recursive:
at each position, when the next four characters are `"<A2A"` they are
replaced and skipped, otherwise one character is emitted.  Every step
consumes at least one character, so `s.length` fuel (supplied by
`replaceA2A`) always suffices. -/
def replaceA2AFuel : Nat → Str → Str
  | 0, s => s
  | _ + 1, [] => []
  | fuel + 1, c :: rest =>
    if c = '<' ∧ rest.take 3 = "A2A".data then
      "&gt;A2A".data ++ replaceA2AFuel fuel (rest.drop 3)
    else c :: replaceA2AFuel fuel rest

/-- Python `content.replace("<A2A", "&gt;A2A")`. -/
def replaceA2A (s : Str) : Str := replaceA2AFuel s.length s

/-- The frontmatter-wrapped text before `strip()`:
`f"\n---\ntitle: (m)\nslug:  api/python/(m)\n---\n(rendered)\n"`. -/
def rawMdx (module_name rendered : Str) : Str :=
  '\n' :: "---\ntitle: ".data ++ module_name ++ "\nslug:  api/python/".data ++
    module_name ++ "\n---\n".data ++ rendered ++ ['\n']

/-- The content written for one module, `none` when the stripped content is
empty and the write is skipped.  The escaping happens after the non-empty
check, exactly as in the script. -/
def mdxWritten (module_name rendered : Str) : Option Str :=
  let content := stripWs (rawMdx module_name rendered)
  if ¬stripWs content = [] then some (replaceA2A (escapeBraces content))
  else none

/-- The `excluded_modules` set of the script. -/
def excluded_modules : List Str := ["strands.agent".data]

/-- `generate_docs` from scripts/api-generation-python.py, returning the
(file name, content) pairs written, in loop order.  `render` stands for
`renderer.render_to_string([module])`. -/
def generate_docs (modules : List Str) (render : Str → Str) :
    List (Str × Str) :=
  modules.filterMap (fun module_name =>
    if (splitOnDot module_name).any (fun part => part.head? = some '_') then
      none
    else if module_name ∈ excluded_modules then none
    else
      (mdxWritten module_name (render module_name)).map
        (fun content => (module_name ++ ".mdx".data, content)))

/-- Helper for `bracesEscaped`: scanning with the previous character at hand,
check that every opening brace is immediately preceded by a backslash. -/
def noUnescapedAfter : Char → Str → Bool
  | _, [] => true
  | prev, c :: rest =>
    (decide (¬c = '\x7b') || decide (prev = '\\')) && noUnescapedAfter c rest

/-- Every occurrence of an opening brace in `s` is immediately preceded by a
backslash (in particular `s` does not start with one). -/
def bracesEscaped : Str → Bool
  | [] => true
  | c :: rest => decide (¬c = '\x7b') && noUnescapedAfter c rest

/-! ## Run equations for on_pre_build -/

/-- A concrete environment whose clone step fails. -/
def envCloneFail : Env :=
  { cloneResult := .calledProcessError, pipResult := .ok,
    files := [["strands".data, "agent".data, "agent.py".data]],
    imp := fun _ => .ok }

/-- The same environment with the clone step succeeding. -/
def envCloneOk : Env := { envCloneFail with cloneResult := .ok }

/-- A concrete environment whose pip step fails. -/
def envPipFail : Env := { envCloneOk with pipResult := .calledProcessError }

/-- A concrete successful environment with three categories, one of them
`experimental`. -/
def envNav : Env :=
  { cloneResult := .ok, pipResult := .ok,
    files := [["strands".data, "agent".data, "agent.py".data],
      ["strands".data, "experimental".data, "x.py".data],
      ["strands".data, "tools".data, "t.py".data]],
    imp := fun _ => .ok }

theorem splitOnSep_ne_nil (sep : Char) (s : Str) : splitOnSep sep s ≠ [] := by
  cases s with
  | nil => simp [splitOnSep]
  | cons c rest =>
    simp only [splitOnSep]
    split
    · simp
    · split <;> simp

theorem joinSep_cons (sep : Char) (p : Str) (ps : List Str) (h : ps ≠ []) :
    joinSep sep (p :: ps) = p ++ sep :: joinSep sep ps := by
  cases ps with
  | nil => exact absurd rfl h
  | cons q ps => rfl

theorem joinSep_splitOnSep (sep : Char) (s : Str) :
    joinSep sep (splitOnSep sep s) = s := by
  induction s with
  | nil => rfl
  | cons c rest ih =>
    simp only [splitOnSep]
    by_cases hc : c = sep
    · subst hc
      rw [if_pos rfl, joinSep_cons _ _ _ (splitOnSep_ne_nil _ _), ih]
      rfl
    · rw [if_neg hc]
      rcases hrec : splitOnSep sep rest with _ | ⟨p, ps⟩
      · exact absurd hrec (splitOnSep_ne_nil _ _)
      · rw [hrec] at ih
        cases ps with
        | nil => simpa [joinSep] using congrArg (c :: ·) ih
        | cons q ps =>
          rw [joinSep_cons _ _ _ (by simp)] at ih ⊢
          simpa using congrArg (c :: ·) ih

theorem splitOnSep_cons_self (sep : Char) (t : Str) :
    splitOnSep sep (sep :: t) = [] :: splitOnSep sep t := by
  simp [splitOnSep]

theorem splitOnSep_cons_ne (sep c : Char) (t : Str) (hc : ¬c = sep) :
    splitOnSep sep (c :: t) =
      (c :: (splitOnSep sep t).headI) :: (splitOnSep sep t).tail := by
  simp only [splitOnSep, if_neg hc]
  rcases ht : splitOnSep sep t with _ | ⟨p, ps⟩
  · exact absurd ht (splitOnSep_ne_nil _ _)
  · rfl

theorem headI_mem_splitOnSep (sep : Char) (t : Str) :
    (splitOnSep sep t).headI ∈ splitOnSep sep t := by
  rcases ht : splitOnSep sep t with _ | ⟨p, ps⟩
  · exact absurd ht (splitOnSep_ne_nil _ _)
  · simp

theorem sep_not_mem_of_mem_splitOnSep (sep : Char) (s : Str) :
    ∀ p ∈ splitOnSep sep s, sep ∉ p := by
  induction s with
  | nil =>
    intro p hp
    simp only [splitOnSep, List.mem_singleton] at hp
    simp [hp]
  | cons c rest ih =>
    intro p hp
    by_cases hc : c = sep
    · subst hc
      rw [splitOnSep_cons_self] at hp
      rcases List.mem_cons.mp hp with h | h
      · subst h; simp
      · exact ih p h
    · rw [splitOnSep_cons_ne sep c rest hc] at hp
      rcases List.mem_cons.mp hp with h | h
      · subst h
        have hhead := ih _ (headI_mem_splitOnSep sep rest)
        simp only [List.mem_cons, not_or]
        exact ⟨fun hh => hc hh.symm, hhead⟩
      · exact ih p ((List.tail_sublist _).subset h)

theorem splitOnSep_of_not_mem (sep : Char) (s : Str) (h : sep ∉ s) :
    splitOnSep sep s = [s] := by
  induction s with
  | nil => rfl
  | cons c rest ih =>
    simp only [List.mem_cons, not_or] at h
    rw [splitOnSep_cons_ne sep c rest (fun hcs => h.1 hcs.symm), ih h.2]
    rfl

theorem splitOnSep_append_sep (sep : Char) (a b : Str) :
    splitOnSep sep (a ++ sep :: b) = splitOnSep sep a ++ splitOnSep sep b := by
  induction a with
  | nil => simp [splitOnSep]
  | cons c a ih =>
    by_cases hc : c = sep
    · subst hc
      rw [List.cons_append, splitOnSep_cons_self, splitOnSep_cons_self, ih,
        List.cons_append]
    · rw [List.cons_append, splitOnSep_cons_ne sep c _ hc,
        splitOnSep_cons_ne sep c _ hc, ih]
      rcases ha : splitOnSep sep a with _ | ⟨p, ps⟩
      · exact absurd ha (splitOnSep_ne_nil _ _)
      · simp

theorem splitOnSep_joinSep (sep : Char) (ps : List Str) (hne : ps ≠ [])
    (hfree : ∀ p ∈ ps, sep ∉ p) : splitOnSep sep (joinSep sep ps) = ps := by
  induction ps with
  | nil => exact absurd rfl hne
  | cons p ps ih =>
    cases ps with
    | nil =>
      simpa [joinSep] using splitOnSep_of_not_mem sep p (hfree p (by simp))
    | cons q qs =>
      rw [joinSep_cons _ _ _ (by simp), splitOnSep_append_sep,
        splitOnSep_of_not_mem sep p (hfree p (by simp)),
        ih (by simp) (fun r hr => hfree r (List.mem_cons_of_mem _ hr))]
      rfl

theorem joinDot_splitOnDot (s : Str) : joinDot (splitOnDot s) = s :=
  joinSep_splitOnSep '.' s

theorem splitOnDot_ne_nil (s : Str) : splitOnDot s ≠ [] :=
  splitOnSep_ne_nil '.' s

theorem splitOnDot_joinDot (ps : List Str) (hne : ps ≠ [])
    (hfree : ∀ p ∈ ps, '.' ∉ p) : splitOnDot (joinDot ps) = ps :=
  splitOnSep_joinSep '.' ps hne hfree

theorem splitOnDot_inj {a b : Str} (h : splitOnDot a = splitOnDot b) : a = b := by
  have := congrArg joinDot h
  rwa [joinDot_splitOnDot, joinDot_splitOnDot] at this

theorem strLe_refl (a : Str) : strLe a a = true := by
  induction a with
  | nil => rfl
  | cons c a ih => simp [strLe, ih]

theorem strLe_total (a b : Str) : strLe a b = true ∨ strLe b a = true := by
  induction a generalizing b with
  | nil => left; rfl
  | cons c a ih =>
    cases b with
    | nil => right; rfl
    | cons d b =>
      rcases lt_trichotomy c d with h | h | h
      · left; simp [strLe, h]
      · subst h
        rcases ih b with hab | hba
        · left; simp [strLe, hab]
        · right; simp [strLe, hba]
      · right; simp [strLe, h]

theorem strLe_trans {a b c : Str} (hab : strLe a b = true)
    (hbc : strLe b c = true) : strLe a c = true := by
  induction a generalizing b c with
  | nil => rfl
  | cons x a ih =>
    cases b with
    | nil => exact absurd hab (by simp [strLe])
    | cons y b =>
      cases c with
      | nil => exact absurd hbc (by simp [strLe])
      | cons z c =>
        simp only [strLe] at hab hbc ⊢
        by_cases hxy : x < y
        · by_cases hyz : y < z
          · simp [lt_trans hxy hyz]
          · by_cases hzy : z < y
            · exact absurd hbc (by simp [hyz, hzy])
            · have : y = z := le_antisymm (not_lt.mp hzy) (not_lt.mp hyz)
              subst this
              simp [hxy]
        · by_cases hyx : y < x
          · exact absurd hab (by simp [hxy, hyx])
          · have : x = y := le_antisymm (not_lt.mp hyx) (not_lt.mp hxy)
            subst this
            by_cases hyz : x < z
            · simp [hyz]
            · by_cases hzy : z < x
              · exact absurd hbc (by simp [hyz, hzy])
              · have hxz : x = z := le_antisymm (not_lt.mp hzy) (not_lt.mp hyz)
                subst hxz
                simp only [lt_irrefl, if_false] at hab hbc ⊢
                exact ih hab hbc

theorem strLe_antisymm {a b : Str} (hab : strLe a b = true)
    (hba : strLe b a = true) : a = b := by
  induction a generalizing b with
  | nil =>
    cases b with
    | nil => rfl
    | cons d b => exact absurd hba (by simp [strLe])
  | cons c a ih =>
    cases b with
    | nil => exact absurd hab (by simp [strLe])
    | cons d b =>
      simp only [strLe] at hab hba
      by_cases hcd : c < d
      · exact absurd hba (by simp [hcd, asymm hcd])
      · by_cases hdc : d < c
        · exact absurd hab (by simp [hcd, hdc])
        · have : c = d := le_antisymm (not_lt.mp hdc) (not_lt.mp hcd)
          subst this
          simp only [lt_irrefl, if_false] at hab hba
          rw [ih hab hba]

/-! ## Properties of generate_doc_file and discover_modules -/

/-- Claim C6: for every module name `m`, `generate_doc_file m path` writes a
file whose content is exactly the four-line mkdocstrings stub
`"::: m"`, `"    options:"`, `"      heading_level: 1"`,
`"      members: true"`, joined by newlines and terminated by a trailing
newline. -/
theorem claim_C6_generate_doc_file (m : Str) (path : List Str) :
    generate_doc_file m path =
      (path, "::: ".data ++ m ++
        "\n    options:\n      heading_level: 1\n      members: true\n".data) := by
  have htail : ('\n' :: ("    options:".data ++ '\n' ::
      ("      heading_level: 1".data ++ '\n' ::
        ("      members: true".data ++ ['\n'])))) =
      "\n    options:\n      heading_level: 1\n      members: true\n".data := by
    decide
  show (path, joinSep '\n' (doc_file_lines m) ++ ['\n']) = _
  rw [← htail]
  simp [doc_file_lines, joinSep, List.append_assoc]

/-- Claim C5: `discover_modules` returns the dotted module name of every
`.py` file whose file name does not start with an underscore, and a module is
included even when importing it raises `ImportError` — the returned list does
not depend on which imports fail, as long as no import raises an exception
other than `ImportError`. -/
theorem discover_modules_cons (f : List Str) (fs : List (List Str))
    (imp : Str → ImportOutcome) :
    discover_modules (f :: fs) imp =
      if (f.getLastD []).head? = some '_' then discover_modules fs imp
      else
        match imp (moduleOfRel f) with
        | .ok => (discover_modules fs imp).map (moduleOfRel f :: ·)
        | .importError => (discover_modules fs imp).map (moduleOfRel f :: ·)
        | .otherError => .error () := rfl

theorem claim_C5_discover_modules (files : List (List Str))
    (imp : Str → ImportOutcome) (h : ∀ m, imp m ≠ .otherError) :
    discover_modules files imp =
      .ok ((files.filter
        (fun f => decide (¬(f.getLastD []).head? = some '_'))).map
          moduleOfRel) := by
  induction files with
  | nil => rfl
  | cons f fs ih =>
    rw [discover_modules_cons]
    by_cases hu : (f.getLastD []).head? = some '_'
    · rw [if_pos hu, ih, List.filter_cons, if_neg
        (by simp only [decide_eq_true_eq, not_not]
            exact hu :
          ¬decide (¬(f.getLastD []).head? = some '_') = true)]
    · rw [if_neg hu]
      have hfil : List.filter
            (fun g => decide (¬(g.getLastD []).head? = some '_')) (f :: fs) =
          f :: List.filter
            (fun g => decide (¬(g.getLastD []).head? = some '_')) fs := by
        rw [List.filter_cons, if_pos
          (by simp only [decide_eq_true_eq]; exact hu)]
      cases himp : imp (moduleOfRel f) with
      | ok => rw [ih, hfil]; rfl
      | importError => rw [ih, hfil]; rfl
      | otherError => exact absurd himp (h _)

/-- Witness for claim C5 at a concrete input: one regular file and one
underscore file, with every import raising `ImportError`. -/
theorem claim_C5_witness :
    discover_modules
        [["strands".data, "agent.py".data], ["strands".data, "_types.py".data]]
        (fun _ => ImportOutcome.importError) =
      .ok ["strands.agent".data] := by
  rw [claim_C5_discover_modules
    [["strands".data, "agent.py".data], ["strands".data, "_types.py".data]]
    (fun _ => ImportOutcome.importError)
    (fun m hm => ImportOutcome.noConfusion hm)]
  rfl

/-! ## Properties of find_container_modules -/

/-- Membership in the candidate list contributed by one module of the loop of
`find_container_modules`. -/
theorem mem_containerCandidates {modules : List Str} {main c module : Str} :
    c ∈ containerCandidates modules main module ↔
      (2 < (splitOnDot module).length ∧
        (∃ i, 2 ≤ i ∧ i < (splitOnDot module).length ∧
          c = joinDot ((splitOnDot module).take (i + 1))) ∧
        c ≠ main ∧ c ∉ modules ∧
        1 < (modules.filter
          (fun m => (c ++ ['.']).isPrefixOf m)).length) := by
  unfold containerCandidates
  by_cases hlen : 2 < (splitOnDot module).length
  · rw [if_pos hlen]
    simp only [List.mem_filterMap, List.mem_range'_1]
    constructor
    · rintro ⟨i, ⟨h2i, hiu⟩, hopt⟩
      split at hopt
      · rename_i hcond
        cases hopt
        refine ⟨hlen, ⟨i, h2i, by omega, rfl⟩, hcond.1, hcond.2.1, hcond.2.2⟩
      · exact absurd hopt (by simp)
    · rintro ⟨-, ⟨i, h2i, hiu, hc⟩, hmain, hnotmem, hcount⟩
      refine ⟨i, ⟨h2i, by omega⟩, ?_⟩
      rw [if_pos]
      · rw [hc]
      · subst hc
        exact ⟨hmain, hnotmem, hcount⟩
  · rw [if_neg hlen]
    simp [hlen]

/-- The dotted parts of a candidate container are exactly the taken parts of
the contributing module. -/
theorem splitOnDot_take (module : Str) (n : Nat) (hn : 0 < n)
    (hle : n ≤ (splitOnDot module).length) :
    splitOnDot (joinDot ((splitOnDot module).take n)) =
      (splitOnDot module).take n := by
  apply splitOnDot_joinDot
  · intro h
    have := congrArg List.length h
    simp only [List.length_take, List.length_nil] at this
    omega
  · intro p hp
    exact sep_not_mem_of_mem_splitOnSep '.' module p
      ((List.take_sublist _ _).subset hp)

/-- Characterisation of membership in `find_container_modules`: dotted names
of at least three parts, distinct from the main module, not themselves
modules, with strictly more than one module strictly below them. -/
theorem mem_find_container_modules {modules : List Str} {main c : Str} :
    c ∈ find_container_modules modules main ↔
      (3 ≤ (splitOnDot c).length ∧ c ≠ main ∧ c ∉ modules ∧
        1 < (modules.filter
          (fun m => (c ++ ['.']).isPrefixOf m)).length) := by
  unfold find_container_modules
  rw [List.mem_insertionSort, List.mem_dedup, List.mem_flatMap]
  constructor
  · rintro ⟨module, hmod, hc⟩
    rcases mem_containerCandidates.mp hc with
      ⟨hlen, ⟨i, h2i, hiu, hck⟩, hmain, hnotmem, hcount⟩
    refine ⟨?_, hmain, hnotmem, hcount⟩
    have htake : splitOnDot c = (splitOnDot module).take (i + 1) := by
      rw [hck]; exact splitOnDot_take module (i + 1) (by omega) (by omega)
    have : (splitOnDot c).length = i + 1 := by
      rw [htake, List.length_take]; omega
    omega
  · rintro ⟨hlen, hmain, hnotmem, hcount⟩
    have hne : (modules.filter (fun m => (c ++ ['.']).isPrefixOf m)) ≠ [] := by
      intro h
      rw [h] at hcount
      simp at hcount
    rcases List.exists_mem_of_ne_nil _ hne with ⟨m, hm⟩
    have hmmem : m ∈ modules := (List.mem_filter.mp hm).1
    have hmpre : (c ++ ['.']).isPrefixOf m = true := by
      simpa using (List.mem_filter.mp hm).2
    rcases List.isPrefixOf_iff_prefix.mp hmpre with ⟨r, hr⟩
    have hmeq : m = c ++ '.' :: r := by
      rw [← hr, List.append_assoc]; rfl
    have hsplit : splitOnDot m = splitOnDot c ++ splitOnDot r := by
      rw [hmeq]; exact splitOnSep_append_sep '.' c r
    have hrlen : 1 ≤ (splitOnDot r).length :=
      List.length_pos.mpr (splitOnDot_ne_nil r)
    have hmlen : (splitOnDot m).length =
        (splitOnDot c).length + (splitOnDot r).length := by
      rw [hsplit, List.length_append]
    refine ⟨m, hmmem, mem_containerCandidates.mpr
      ⟨by omega, ⟨(splitOnDot c).length - 1, by omega, by omega, ?_⟩,
        hmain, hnotmem, hcount⟩⟩
    have htk : (splitOnDot m).take ((splitOnDot c).length - 1 + 1) =
        splitOnDot c := by
      have : (splitOnDot c).length - 1 + 1 = (splitOnDot c).length := by omega
      rw [this, hsplit, List.take_left]
    rw [htk, joinDot_splitOnDot]

/-- Claim C3: `find_container_modules(modules, main_module)` returns, sorted
and without duplicates, exactly the dotted names of at least three parts that
are a proper prefix of some module, differ from `main_module`, are not
themselves members of `modules`, and have strictly more than one member of
`modules` as descendants (members starting with the name followed by a
dot). -/
theorem claim_C3_find_container_modules (modules : List Str)
    (main_module : Str) :
    List.Sorted (fun a b => strLe a b = true)
        (find_container_modules modules main_module) ∧
      (find_container_modules modules main_module).Nodup ∧
      ∀ c, c ∈ find_container_modules modules main_module ↔
        (3 ≤ (splitOnDot c).length ∧
          (∃ m ∈ modules, c.isPrefixOf m = true ∧ c ≠ m) ∧
          c ≠ main_module ∧ c ∉ modules ∧
          1 < (modules.filter
            (fun m => (c ++ ['.']).isPrefixOf m)).length) := by
  haveI : IsTotal Str (fun a b => strLe a b = true) := ⟨strLe_total⟩
  haveI : IsTrans Str (fun a b => strLe a b = true) :=
    ⟨fun _ _ _ => strLe_trans⟩
  refine ⟨List.sorted_insertionSort _ _, ?_, ?_⟩
  · exact ((List.perm_insertionSort _ _).nodup_iff).mpr (List.nodup_dedup _)
  · intro c
    rw [mem_find_container_modules]
    constructor
    · rintro ⟨hlen, hmain, hnotmem, hcount⟩
      refine ⟨hlen, ?_, hmain, hnotmem, hcount⟩
      have hne : (modules.filter (fun m => (c ++ ['.']).isPrefixOf m)) ≠ [] := by
        intro h
        rw [h] at hcount
        simp at hcount
      rcases List.exists_mem_of_ne_nil _ hne with ⟨m, hm⟩
      have hmmem : m ∈ modules := (List.mem_filter.mp hm).1
      have hmpre : (c ++ ['.']).isPrefixOf m = true := by
        simpa using (List.mem_filter.mp hm).2
      rcases List.isPrefixOf_iff_prefix.mp hmpre with ⟨r, hr⟩
      refine ⟨m, hmmem, ?_, ?_⟩
      · apply List.isPrefixOf_iff_prefix.mpr
        exact ⟨'.' :: r, by rw [← hr, List.append_assoc]; rfl⟩
      · intro hcm
        have := congrArg List.length hr
        simp only [List.length_append, List.length_cons] at this
        rw [hcm] at this
        omega
    · rintro ⟨hlen, -, hmain, hnotmem, hcount⟩
      exact ⟨hlen, hmain, hnotmem, hcount⟩

/-! ## Properties of the child ordering in build_nav -/

theorem is_base_class_iff (cn pn : Str) :
    is_base_class cn pn = true ↔
      (cn = pn ∨ cn = rstripS pn ∨ cn ++ ['s'] = pn) := by
  simp [is_base_class, or_assoc]

theorem keyFlag_le_one (pn k : Str) : keyFlag pn k ≤ 1 := by
  unfold keyFlag
  split <;> omega

theorem keyFlag_eq_one_iff (pn k : Str) :
    keyFlag pn k = 1 ↔ is_base_class (lastName k) pn = false := by
  unfold keyFlag
  split <;> rename_i hb <;> simp [hb]

theorem keyLe_total (pn : Str) (a b : Str) :
    keyLe pn a b = true ∨ keyLe pn b a = true := by
  unfold keyLe
  rcases Nat.lt_trichotomy (keyFlag pn a) (keyFlag pn b) with h | h | h
  · left; simp [h]
  · rcases strLe_total (lastName a) (lastName b) with hs | hs
    · left; simp [h, hs]
    · right; simp [h.symm, hs]
  · right; simp [h]

theorem keyLe_trans (pn : Str) {a b c : Str} (hab : keyLe pn a b = true)
    (hbc : keyLe pn b c = true) : keyLe pn a c = true := by
  unfold keyLe at hab hbc ⊢
  simp only [Bool.or_eq_true, Bool.and_eq_true, decide_eq_true_eq] at hab hbc ⊢
  rcases hab with h1 | ⟨h1, h1s⟩
  · rcases hbc with h2 | ⟨h2, h2s⟩
    · left; omega
    · left; omega
  · rcases hbc with h2 | ⟨h2, h2s⟩
    · left; omega
    · right; exact ⟨h1.trans h2, strLe_trans h1s h2s⟩

theorem keyLe_flag_le {pn a b : Str} (h : keyLe pn a b = true) :
    keyFlag pn a ≤ keyFlag pn b := by
  unfold keyLe at h
  simp only [Bool.or_eq_true, Bool.and_eq_true, decide_eq_true_eq] at h
  rcases h with h | ⟨h, -⟩ <;> omega

theorem keyLe_strLe_of_flags {pn a b : Str} (h : keyLe pn a b = true)
    (ha : keyFlag pn a = 1) (hb : keyFlag pn b = 1) :
    strLe (lastName a) (lastName b) = true := by
  unfold keyLe at h
  simp only [Bool.or_eq_true, Bool.and_eq_true, decide_eq_true_eq] at h
  rcases h with h | ⟨-, hs⟩
  · omega
  · exact hs

theorem dropWhile_head_false {α : Type} (p : α → Bool) :
    ∀ (l : List α) (x : α) (xs : List α),
      l.dropWhile p = x :: xs → p x = false
  | [], x, xs, h => by simp [List.dropWhile] at h
  | a :: l, x, xs, h => by
    rw [List.dropWhile_cons] at h
    split at h
    · exact dropWhile_head_false p l x xs h
    · rename_i ha
      cases h
      simpa using ha

/-- Claim C4: in every call of `build_nav`, the child entries of the parent
are emitted with every base-class-like child (last component equal to the
parent's last component, to it with trailing `'s'` stripped, or to it minus an
appended `'s'`) first, followed by the remaining children in ascending order
of their last name component; the emitted keys are exactly the grouped
immediate children. -/
theorem claim_C4_build_nav_child_order (modules : List Str)
    (parent_module : Str) :
    ∃ bs rs,
      sortedChildKeys modules parent_module = bs ++ rs ∧
      (∀ k ∈ bs,
        lastName k = lastName parent_module ∨
        lastName k = rstripS (lastName parent_module) ∨
        lastName k ++ ['s'] = lastName parent_module) ∧
      (∀ k ∈ rs,
        ¬(lastName k = lastName parent_module ∨
          lastName k = rstripS (lastName parent_module) ∨
          lastName k ++ ['s'] = lastName parent_module)) ∧
      List.Sorted (fun a b => strLe (lastName a) (lastName b) = true) rs ∧
      (∀ k, k ∈ sortedChildKeys modules parent_module ↔
        k ∈ groupKeys modules (splitOnDot parent_module).length) := by
  haveI : IsTotal Str
      (fun a b => keyLe (lastName parent_module) a b = true) :=
    ⟨keyLe_total (lastName parent_module)⟩
  haveI : IsTrans Str
      (fun a b => keyLe (lastName parent_module) a b = true) :=
    ⟨fun _ _ _ => keyLe_trans (lastName parent_module)⟩
  have hsorted : List.Sorted
      (fun a b => keyLe (lastName parent_module) a b = true)
      (sortedChildKeys modules parent_module) :=
    List.sorted_insertionSort _ _
  have hsortedRs : List.Sorted
      (fun a b => keyLe (lastName parent_module) a b = true)
      ((sortedChildKeys modules parent_module).dropWhile
        (fun k => is_base_class (lastName k) (lastName parent_module))) :=
    List.Pairwise.sublist (List.dropWhile_sublist _) hsorted
  have hall : ∀ k ∈ (sortedChildKeys modules parent_module).dropWhile
      (fun k => is_base_class (lastName k) (lastName parent_module)),
      is_base_class (lastName k) (lastName parent_module) = false := by
    rcases hd : (sortedChildKeys modules parent_module).dropWhile
        (fun k => is_base_class (lastName k) (lastName parent_module)) with
      _ | ⟨x, xs⟩
    · simp
    · have hx : is_base_class (lastName x) (lastName parent_module) = false :=
        dropWhile_head_false _ _ x xs hd
      intro k hk
      rw [hd] at hsortedRs
      rcases List.mem_cons.mp hk with rfl | hk2
      · exact hx
      · have hxk : keyLe (lastName parent_module) x k = true :=
          (List.pairwise_cons.mp hsortedRs).1 k hk2
        have hfx : keyFlag (lastName parent_module) x = 1 :=
          (keyFlag_eq_one_iff _ _).mpr hx
        have hfk : keyFlag (lastName parent_module) k = 1 := by
          have := keyLe_flag_le hxk
          have := keyFlag_le_one (lastName parent_module) k
          omega
        exact (keyFlag_eq_one_iff _ _).mp hfk
  refine ⟨(sortedChildKeys modules parent_module).takeWhile
      (fun k => is_base_class (lastName k) (lastName parent_module)),
    (sortedChildKeys modules parent_module).dropWhile
      (fun k => is_base_class (lastName k) (lastName parent_module)),
    (List.takeWhile_append_dropWhile _ _).symm, ?_, ?_, ?_, ?_⟩
  · intro k hk
    have h1 := List.mem_takeWhile_imp hk
    exact (is_base_class_iff _ _).mp h1
  · intro k hk hdisj
    have hfalse := hall k hk
    rw [(is_base_class_iff _ _).mpr hdisj] at hfalse
    exact Bool.noConfusion hfalse
  · exact List.Pairwise.imp_of_mem
      (fun hma hmb hr =>
        keyLe_strLe_of_flags hr
          ((keyFlag_eq_one_iff _ _).mpr (hall _ hma))
          ((keyFlag_eq_one_iff _ _).mpr (hall _ hmb)))
      hsortedRs
  · intro k
    unfold sortedChildKeys
    exact List.mem_insertionSort _

theorem on_pre_build_err_eq (env : Env) (sp : List Str)
    (hc : env.cloneResult = .calledProcessError) :
    on_pre_build env sp =
      { logs := [.cloneFailed], written := [], navCategories := none,
        sysPathFinal := sp, finalCleanupRan := false, raised := false } := by
  unfold on_pre_build
  rw [hc]

theorem on_pre_build_raise_eq (env : Env) (sp : List Str)
    (hc : env.cloneResult = .ok)
    (hd : discover_modules env.files env.imp = .error ()) :
    on_pre_build env sp =
      { logs := (match env.pipResult with
          | .ok => [.cloneOk, .pipOk]
          | .calledProcessError => [.cloneOk, .pipFailed]),
        written := [], navCategories := none,
        sysPathFinal := (sdkSrcPath :: sp).erase sdkSrcPath,
        finalCleanupRan := true, raised := true } := by
  unfold on_pre_build
  rw [hc, hd]

theorem on_pre_build_empty_eq (env : Env) (sp : List Str)
    (hc : env.cloneResult = .ok)
    (hd : discover_modules env.files env.imp = .ok []) :
    on_pre_build env sp =
      { logs := (match env.pipResult with
          | .ok => [.cloneOk, .pipOk]
          | .calledProcessError => [.cloneOk, .pipFailed]) ++ [.noModules],
        written := [], navCategories := none,
        sysPathFinal := (sdkSrcPath :: sp).erase sdkSrcPath,
        finalCleanupRan := true, raised := false } := by
  unfold on_pre_build
  rw [hc, hd]
  rfl

theorem on_pre_build_ok_eq (env : Env) (sp : List Str) (modules : List Str)
    (hc : env.cloneResult = .ok)
    (hd : discover_modules env.files env.imp = .ok modules)
    (hm : ¬modules = []) :
    on_pre_build env sp =
      { logs := (match env.pipResult with
          | .ok => [.cloneOk, .pipOk]
          | .calledProcessError => [.cloneOk, .pipFailed]) ++ [.navUpdated],
        written := (sortedCategoryKeys modules).flatMap (fun category =>
          (docOutputs (categoryModules modules category)
            (mainModuleOf category)).map (fun p => (p.1, category :: p.2))),
        navCategories := some (categoryNavOrder (sortedCategoryKeys modules)),
        sysPathFinal := (sdkSrcPath :: sp).erase sdkSrcPath,
        finalCleanupRan := true, raised := false } := by
  unfold on_pre_build
  rw [hc, hd]
  change (if modules = [] then _ else _) = _
  rw [if_neg hm]

/-! ## Properties of the category navigation order -/

theorem categoryNavOrder_foldl (ks : List Str) :
    ∀ (acc : List Str) (o : Option Str),
      (match (ks.foldl categoryNavStep (acc, o)).2 with
        | some c => (ks.foldl categoryNavStep (acc, o)).1 ++ [c]
        | none => (ks.foldl categoryNavStep (acc, o)).1) =
        acc ++ ks.filter (fun c => decide (¬c = "experimental".data)) ++
          (if "experimental".data ∈ ks then ["experimental".data]
            else (match o with | some x => [x] | none => [])) := by
  induction ks with
  | nil =>
    intro acc o
    cases o <;> simp
  | cons k ks ih =>
    intro acc o
    rw [List.foldl_cons]
    by_cases hk : k = "experimental".data
    · subst hk
      rw [show categoryNavStep (acc, o) "experimental".data =
          (acc, some "experimental".data) from by simp [categoryNavStep]]
      rw [ih acc (some "experimental".data)]
      simp [List.filter_cons]
    · rw [show categoryNavStep (acc, o) k = (acc ++ [k], o) from by
        simp [categoryNavStep, hk]]
      rw [ih (acc ++ [k]) o]
      simp [List.filter_cons, hk, Ne.symm hk, List.append_assoc]

theorem categoryNavOrder_eq (ks : List Str) :
    categoryNavOrder ks =
      ks.filter (fun c => decide (¬c = "experimental".data)) ++
        (if "experimental".data ∈ ks then ["experimental".data] else []) := by
  have h := categoryNavOrder_foldl ks [] none
  unfold categoryNavOrder
  rw [h]
  simp

/-- Claim C8: in the navigation list produced by `on_pre_build`, category
entries appear in ascending alphabetical order of category name, except that
the category `experimental`, when present, is placed last. -/
theorem claim_C8_category_order (env : Env) (sysPath0 : List Str)
    (l : List Str)
    (h : (on_pre_build env sysPath0).navCategories = some l) :
    ∃ cats : List Str,
      List.Sorted (fun a b => strLe a b = true) cats ∧
      l = cats.filter (fun c => decide (¬c = "experimental".data)) ++
        (if "experimental".data ∈ cats then ["experimental".data] else []) ∧
      List.Sorted (fun a b => strLe a b = true)
        (cats.filter (fun c => decide (¬c = "experimental".data))) := by
  haveI : IsTotal Str (fun a b => strLe a b = true) := ⟨strLe_total⟩
  haveI : IsTrans Str (fun a b => strLe a b = true) :=
    ⟨fun _ _ _ => strLe_trans⟩
  cases hc : env.cloneResult with
  | calledProcessError =>
    rw [on_pre_build_err_eq env sysPath0 hc] at h
    exact absurd h (by simp)
  | ok =>
    cases hd : discover_modules env.files env.imp with
    | error e =>
      cases e
      rw [on_pre_build_raise_eq env sysPath0 hc hd] at h
      exact absurd h (by simp)
    | ok modules =>
      by_cases hm : modules = []
      · subst hm
        rw [on_pre_build_empty_eq env sysPath0 hc hd] at h
        exact absurd h (by simp)
      · rw [on_pre_build_ok_eq env sysPath0 modules hc hd hm] at h
        have hl : l = categoryNavOrder (sortedCategoryKeys modules) :=
          (Option.some.inj h).symm
        refine ⟨sortedCategoryKeys modules, List.sorted_insertionSort _ _,
          ?_, List.Pairwise.filter _ (List.sorted_insertionSort _ _)⟩
        rw [hl, categoryNavOrder_eq]

/-- Witness for claim C8 at a concrete environment with categories `agent`,
`experimental` and `tools`: the produced order is agent, tools,
experimental. -/
theorem claim_C8_witness :
    ∃ cats : List Str,
      List.Sorted (fun a b => strLe a b = true) cats ∧
      ["agent".data, "tools".data, "experimental".data] =
        cats.filter (fun c => decide (¬c = "experimental".data)) ++
        (if "experimental".data ∈ cats then ["experimental".data] else []) ∧
      List.Sorted (fun a b => strLe a b = true)
        (cats.filter (fun c => decide (¬c = "experimental".data))) :=
  claim_C8_category_order envNav []
    ["agent".data, "tools".data, "experimental".data] (by decide)

/-! ## Failure handling and cleanup of on_pre_build -/

/-- Counterexample to claim C2 as stated: when the git-clone step fails,
`on_pre_build` logs the failure but returns immediately — no doc file is
written and the navigation is not updated, although the same environment with
a successful clone does generate documentation.  Clone failure therefore does
abort doc generation. -/
theorem claim_C2_counterexample :
    (on_pre_build envCloneFail []).written = [] ∧
      (on_pre_build envCloneFail []).navCategories = none ∧
      LogEvent.cloneFailed ∈ (on_pre_build envCloneFail []).logs ∧
      ¬(on_pre_build envCloneOk []).written = [] := by
  decide

/-- Claim C2 (amended): when the pip-install step fails, `on_pre_build` logs
the failure and continues with documentation generation, producing the same
doc files and navigation as a run with a successful pip step; when the
git-clone step fails, `on_pre_build` logs the failure and returns without
generating any documentation. -/
theorem claim_C2_step_failures (env : Env) (sysPath0 : List Str) :
    (env.cloneResult = .calledProcessError →
      LogEvent.cloneFailed ∈ (on_pre_build env sysPath0).logs ∧
      (on_pre_build env sysPath0).written = [] ∧
      (on_pre_build env sysPath0).navCategories = none) ∧
    (env.cloneResult = .ok → env.pipResult = .calledProcessError →
      LogEvent.pipFailed ∈ (on_pre_build env sysPath0).logs ∧
      (on_pre_build env sysPath0).written =
        (on_pre_build { env with pipResult := .ok } sysPath0).written ∧
      (on_pre_build env sysPath0).navCategories =
        (on_pre_build { env with pipResult := .ok } sysPath0).navCategories) := by
  constructor
  · intro hc
    rw [on_pre_build_err_eq env sysPath0 hc]
    exact ⟨by simp, rfl, rfl⟩
  · intro hc hp
    have hc2 : ({ env with pipResult := .ok } : Env).cloneResult = .ok := hc
    cases hd : discover_modules env.files env.imp with
    | error e =>
      cases e
      rw [on_pre_build_raise_eq env sysPath0 hc hd,
        on_pre_build_raise_eq { env with pipResult := .ok } sysPath0 hc2 hd]
      refine ⟨?_, rfl, rfl⟩
      rw [hp]
      simp
    | ok modules =>
      by_cases hm : modules = []
      · subst hm
        rw [on_pre_build_empty_eq env sysPath0 hc hd,
          on_pre_build_empty_eq { env with pipResult := .ok } sysPath0 hc2 hd]
        refine ⟨?_, rfl, rfl⟩
        rw [hp]
        simp
      · rw [on_pre_build_ok_eq env sysPath0 modules hc hd hm,
          on_pre_build_ok_eq { env with pipResult := .ok } sysPath0 modules hc2
            hd hm]
        refine ⟨?_, rfl, rfl⟩
        rw [hp]
        simp

/-- Witness for the amended claim C2 at concrete environments: a failed clone
is logged with nothing written; a failed pip install is logged and the same
file set is written as with a successful install. -/
theorem claim_C2_step_failures_witness :
    (LogEvent.cloneFailed ∈ (on_pre_build envCloneFail []).logs ∧
        (on_pre_build envCloneFail []).written = []) ∧
      (LogEvent.pipFailed ∈ (on_pre_build envPipFail []).logs ∧
        (on_pre_build envPipFail []).written =
          (on_pre_build { envPipFail with pipResult := .ok } []).written) :=
  ⟨⟨((claim_C2_step_failures envCloneFail []).1 rfl).1,
      ((claim_C2_step_failures envCloneFail []).1 rfl).2.1⟩,
    ⟨((claim_C2_step_failures envPipFail []).2 rfl rfl).1,
      ((claim_C2_step_failures envPipFail []).2 rfl rfl).2.1⟩⟩

/-- Claim C7: on every exit of `on_pre_build` after the SDK source path has
been inserted into `sys.path` (that is, whenever the clone step succeeded),
whether generation completes normally, returns early on an empty module list,
or an import raises: `sys.path` is restored to its prior value and the
`finally` cleanup removing the temporary clone directory runs. -/
theorem claim_C7_cleanup (env : Env) (sysPath0 : List Str)
    (h : env.cloneResult = .ok) :
    (on_pre_build env sysPath0).sysPathFinal = sysPath0 ∧
      (on_pre_build env sysPath0).finalCleanupRan = true := by
  cases hd : discover_modules env.files env.imp with
  | error e =>
    cases e
    rw [on_pre_build_raise_eq env sysPath0 h hd]
    exact ⟨List.erase_cons_head sdkSrcPath sysPath0, rfl⟩
  | ok modules =>
    by_cases hm : modules = []
    · subst hm
      rw [on_pre_build_empty_eq env sysPath0 h hd]
      exact ⟨List.erase_cons_head sdkSrcPath sysPath0, rfl⟩
    · rw [on_pre_build_ok_eq env sysPath0 modules h hd hm]
      exact ⟨List.erase_cons_head sdkSrcPath sysPath0, rfl⟩

/-- Witness for claim C7 at a concrete environment and a nonempty prior
`sys.path`. -/
theorem claim_C7_witness :
    (on_pre_build envNav ["prior-entry".data]).sysPathFinal =
        ["prior-entry".data] ∧
      (on_pre_build envNav ["prior-entry".data]).finalCleanupRan = true :=
  claim_C7_cleanup envNav ["prior-entry".data] rfl

/-! ## Properties of generate_docs -/

/-- Every pair produced by `generate_docs` comes from a module that passed
both skip rules, and its content is the escaped rendering of that module. -/
theorem mem_generate_docs {modules : List Str} {render : Str → Str}
    {p : Str × Str} (hp : p ∈ generate_docs modules render) :
    ∃ m ∈ modules,
      p.1 = m ++ ".mdx".data ∧
      (∀ part ∈ splitOnDot m, ¬part.head? = some '_') ∧
      ¬m = "strands.agent".data ∧
      mdxWritten m (render m) = some p.2 := by
  unfold generate_docs at hp
  rcases List.mem_filterMap.mp hp with ⟨m, hm, hsome⟩
  refine ⟨m, hm, ?_⟩
  split at hsome
  · exact absurd hsome (by simp)
  · split at hsome
    · exact absurd hsome (by simp)
    · rename_i hund hexc
      rcases Option.map_eq_some'.mp hsome with ⟨c, hc, hpc⟩
      rw [← hpc]
      simp only [List.any_eq_true, not_exists, not_and,
        decide_eq_true_eq] at hund
      exact ⟨rfl, hund, by simpa [excluded_modules] using hexc, by rw [hc]⟩

/-- Claim C9: `generate_docs` never writes an output file for a module whose
dotted name contains a component beginning with an underscore, nor for the
excluded module `strands.agent`; every written file belongs to a loaded
module satisfying neither exclusion. -/
theorem claim_C9_generate_docs_exclusions (modules : List Str)
    (render : Str → Str) (p : Str × Str)
    (hp : p ∈ generate_docs modules render) :
    ∃ m ∈ modules,
      p.1 = m ++ ".mdx".data ∧
      (∀ part ∈ splitOnDot m, ¬part.head? = some '_') ∧
      ¬m = "strands.agent".data := by
  rcases mem_generate_docs hp with ⟨m, hm, h1, h2, h3, -⟩
  exact ⟨m, hm, h1, h2, h3⟩

/-- Witness for claim C9 at a concrete run writing one file for
`strands.tools`. -/
theorem claim_C9_witness :
    ∃ m ∈ ["strands.tools".data],
      "strands.tools.mdx".data = m ++ ".mdx".data ∧
      (∀ part ∈ splitOnDot m, ¬part.head? = some '_') ∧
      ¬m = "strands.agent".data :=
  claim_C9_generate_docs_exclusions ["strands.tools".data] (fun _ => [])
    ("strands.tools.mdx".data,
      "---\ntitle: strands.tools\nslug:  api/python/strands.tools\n---".data)
    (by decide)

/-! ## The brace-escaping property of generate_docs -/

theorem noUnescapedAfter_escapeBraces (s : Str) :
    ∀ prev, noUnescapedAfter prev (escapeBraces s) = true := by
  induction s with
  | nil => intro prev; rfl
  | cons c rest ih =>
    intro prev
    by_cases hc : c = '\x7b'
    · subst hc
      rw [show escapeBraces ('\x7b' :: rest) =
          '\\' :: '\x7b' :: escapeBraces rest from by simp [escapeBraces]]
      simp [noUnescapedAfter, ih]
    · rw [show escapeBraces (c :: rest) = c :: escapeBraces rest from by
        simp [escapeBraces, hc]]
      simp [noUnescapedAfter, hc, ih]

theorem bracesEscaped_escapeBraces (s : Str) :
    bracesEscaped (escapeBraces s) = true := by
  cases s with
  | nil => rfl
  | cons c rest =>
    by_cases hc : c = '\x7b'
    · subst hc
      rw [show escapeBraces ('\x7b' :: rest) =
          '\\' :: '\x7b' :: escapeBraces rest from by simp [escapeBraces]]
      simp [bracesEscaped, noUnescapedAfter, noUnescapedAfter_escapeBraces rest]
    · rw [show escapeBraces (c :: rest) = c :: escapeBraces rest from by
        simp [escapeBraces, hc]]
      simp [bracesEscaped, hc, noUnescapedAfter_escapeBraces rest]

theorem noUnescapedAfter_replaceA2AFuel :
    ∀ (fuel : Nat) (s : Str) (prev : Char),
      noUnescapedAfter prev s = true →
      noUnescapedAfter prev (replaceA2AFuel fuel s) = true
  | 0, _, _, h => h
  | _ + 1, [], _, h => h
  | fuel + 1, c :: rest, prev, h => by
    have hred : replaceA2AFuel (fuel + 1) (c :: rest) =
        if c = '<' ∧ rest.take 3 = "A2A".data then
          "&gt;A2A".data ++ replaceA2AFuel fuel (rest.drop 3)
        else c :: replaceA2AFuel fuel rest := rfl
    by_cases hp : c = '<' ∧ rest.take 3 = "A2A".data
    · obtain ⟨hc, htake⟩ := hp
      subst hc
      have hrest : rest = 'A' :: '2' :: 'A' :: rest.drop 3 := by
        conv_lhs => rw [← List.take_append_drop 3 rest]
        rw [htake]
        rfl
      rw [hrest] at h
      simp only [noUnescapedAfter, Bool.and_eq_true] at h
      rw [hred, if_pos ⟨rfl, htake⟩]
      show noUnescapedAfter prev
        ('&' :: 'g' :: 't' :: ';' :: 'A' :: '2' :: 'A' ::
          replaceA2AFuel fuel (rest.drop 3)) = true
      simp only [noUnescapedAfter, Bool.and_eq_true]
      refine ⟨by simp, by simp, by simp, by simp, by simp, by simp, by simp,
        ?_⟩
      exact noUnescapedAfter_replaceA2AFuel fuel (rest.drop 3) 'A' h.2.2.2.2
    · rw [hred, if_neg hp]
      simp only [noUnescapedAfter, Bool.and_eq_true] at h ⊢
      exact ⟨h.1, noUnescapedAfter_replaceA2AFuel fuel rest c h.2⟩

theorem bracesEscaped_replaceA2AFuel :
    ∀ (fuel : Nat) (s : Str), bracesEscaped s = true →
      bracesEscaped (replaceA2AFuel fuel s) = true
  | 0, _, h => h
  | _ + 1, [], h => h
  | fuel + 1, c :: rest, h => by
    have hred : replaceA2AFuel (fuel + 1) (c :: rest) =
        if c = '<' ∧ rest.take 3 = "A2A".data then
          "&gt;A2A".data ++ replaceA2AFuel fuel (rest.drop 3)
        else c :: replaceA2AFuel fuel rest := rfl
    by_cases hp : c = '<' ∧ rest.take 3 = "A2A".data
    · obtain ⟨hc, htake⟩ := hp
      subst hc
      have hrest : rest = 'A' :: '2' :: 'A' :: rest.drop 3 := by
        conv_lhs => rw [← List.take_append_drop 3 rest]
        rw [htake]
        rfl
      rw [hrest] at h
      simp only [bracesEscaped, noUnescapedAfter, Bool.and_eq_true] at h
      rw [hred, if_pos ⟨rfl, htake⟩]
      show bracesEscaped
        ('&' :: 'g' :: 't' :: ';' :: 'A' :: '2' :: 'A' ::
          replaceA2AFuel fuel (rest.drop 3)) = true
      simp only [bracesEscaped, noUnescapedAfter, Bool.and_eq_true]
      refine ⟨by decide, by simp, by simp, by simp, by simp, by simp, by simp,
        ?_⟩
      exact noUnescapedAfter_replaceA2AFuel fuel (rest.drop 3) 'A' h.2.2.2.2
    · rw [hred, if_neg hp]
      simp only [bracesEscaped, noUnescapedAfter, Bool.and_eq_true] at h ⊢
      exact ⟨h.1, noUnescapedAfter_replaceA2AFuel fuel rest c h.2⟩

/-- Claim C10: in every `.mdx` content written by `generate_docs`, every
occurrence of an opening brace is immediately preceded by a backslash — the
escaping pass runs before the write and the `"<A2A"` replacement cannot
uncover an unescaped brace. -/
theorem claim_C10_braces_escaped (modules : List Str) (render : Str → Str)
    (p : Str × Str) (hp : p ∈ generate_docs modules render) :
    bracesEscaped p.2 = true := by
  rcases mem_generate_docs hp with ⟨m, -, -, -, -, hw⟩
  simp only [mdxWritten] at hw
  split at hw
  · have hc := Option.some.inj hw
    rw [← hc]
    exact bracesEscaped_replaceA2AFuel _ _ (bracesEscaped_escapeBraces _)
  · exact absurd hw (by simp)

/-- Witness for claim C10 at a concrete run whose rendered content is a bare
opening brace: the written content carries it escaped. -/
theorem claim_C10_witness :
    bracesEscaped
      "---\ntitle: strands.x\nslug:  api/python/strands.x\n---\n\\\x7b".data =
      true :=
  claim_C10_braces_escaped ["strands.x".data] (fun _ => ['\x7b'])
    ("strands.x.mdx".data,
      "---\ntitle: strands.x\nslug:  api/python/strands.x\n---\n\\\x7b".data)
    (by decide)

/-! ## Doc-file outputs of one category: helper lemmas -/

theorem getLastD_append_right {α : Type} (l1 l2 : List α) (d : α)
    (h : ¬l2 = []) : (l1 ++ l2).getLastD d = l2.getLastD d := by
  rw [List.getLastD_eq_getLast?, List.getLastD_eq_getLast?,
    List.getLast?_append]
  rcases hg : l2.getLast? with _ | y
  · rw [List.getLast?_eq_getLast l2 h] at hg
    cases hg
  · rfl

theorem eq_dropLast_append_getLastD {α : Type} (l : List α) (d : α)
    (h : ¬l = []) : l = l.dropLast ++ [l.getLastD d] := by
  have hd : l.getLastD d = l.getLast h := by
    rw [List.getLastD_eq_getLast?, List.getLast?_eq_getLast l h]
    rfl
  rw [hd, List.dropLast_append_getLast h]

theorem countP_eq_one_of_nodup {l : List Str} {m : Str} (hnd : l.Nodup)
    (hm : m ∈ l) : l.countP (fun x => decide (x = m)) = 1 := by
  induction l with
  | nil => cases hm
  | cons a l ih =>
    rw [List.countP_cons]
    rcases List.mem_cons.mp hm with rfl | hm2
    · have hz : l.countP (fun x => decide (x = m)) = 0 :=
        List.countP_eq_zero.mpr (fun x hx hxa =>
          (List.nodup_cons.mp hnd).1 ((decide_eq_true_eq.mp hxa) ▸ hx))
      simp [hz]
    · have ha : ¬a = m := fun he => (List.nodup_cons.mp hnd).1 (he ▸ hm2)
      simp [ih (List.nodup_cons.mp hnd).2 hm2, ha]

theorem countP_filterMap_pair (l : List Str) (g : Str → Option (List Str))
    (m : Str) :
    (l.filterMap (fun x => (g x).map (fun pth => (x, pth)))).countP
      (fun p => decide (p.1 = m)) =
      l.countP (fun x => decide (x = m) && (g x).isSome) := by
  induction l with
  | nil => rfl
  | cons a l ih =>
    cases hg : g a with
    | none =>
      rw [List.filterMap_cons]
      simp only [hg, Option.map_none']
      rw [ih, List.countP_cons]
      simp [hg]
    | some pth =>
      rw [List.filterMap_cons]
      simp only [hg, Option.map_some']
      rw [List.countP_cons, List.countP_cons, ih]
      simp [hg]

theorem docPath_container_none {module_list : List Str} {main c : Str}
    (hc : c ∈ find_container_modules module_list main) :
    docPath (module_list ++ find_container_modules module_list main)
      module_list c = none := by
  rcases mem_find_container_modules.mp hc with ⟨-, -, hnotmem, hcount⟩
  have hne : (module_list.filter
      (fun m => (c ++ ['.']).isPrefixOf m)) ≠ [] := by
    intro h
    rw [h] at hcount
    simp at hcount
  rcases List.exists_mem_of_ne_nil _ hne with ⟨m, hm⟩
  have hmmem : m ∈ module_list := (List.mem_filter.mp hm).1
  have hmpre : (c ++ ['.']).isPrefixOf m = true := by
    simpa using (List.mem_filter.mp hm).2
  have hmc : ¬m = c := fun he => hnotmem (he ▸ hmmem)
  have hmem : m ∈ childrenIn
      (module_list ++ find_container_modules module_list main) c := by
    unfold childrenIn
    rw [List.mem_filter]
    exact ⟨List.mem_append_left _ hmmem, by simp [hmpre, hmc]⟩
  change (if ¬childrenIn
      (module_list ++ find_container_modules module_list main) c = [] ∧
      c ∉ module_list then none else _) = none
  rw [if_pos ⟨List.ne_nil_of_mem hmem, hnotmem⟩]

theorem docPath_form {all actual : List Str} {m : Str} {pth : List Str}
    (h : docPath all actual m = some pth) :
    ((splitOnDot m).length = 2 ∧ pth = ["index.md".data]) ∨
    (¬(splitOnDot m).length = 2 ∧ ¬childrenIn all m = [] ∧
      pth = (splitOnDot m).drop 2 ++ ["index.md".data]) ∨
    (¬(splitOnDot m).length = 2 ∧ childrenIn all m = [] ∧
      pth = leafPath ((splitOnDot m).drop 2)) := by
  simp only [docPath] at h
  split at h
  · cases h
  · split at h
    · rename_i hlen
      exact Or.inl ⟨hlen, (Option.some.inj h).symm⟩
    · split at h
      · rename_i hlen hcond
        exact Or.inr (Or.inl ⟨hlen, hcond.1, (Option.some.inj h).symm⟩)
      · split at h
        · cases h
        · rename_i hlen hcond hch
          exact Or.inr (Or.inr ⟨hlen, not_not.mp hch,
            (Option.some.inj h).symm⟩)

theorem docPath_of_no_children {all actual : List Str} {m : Str}
    (hch : childrenIn all m = []) :
    docPath all actual m =
      some (if (splitOnDot m).length = 2 then ["index.md".data]
        else leafPath ((splitOnDot m).drop 2)) := by
  simp only [docPath]
  rw [if_neg (fun hc => hc.1 hch)]
  by_cases hlen : (splitOnDot m).length = 2
  · rw [if_pos hlen, if_pos hlen]
  · rw [if_neg hlen, if_neg hlen, if_neg (fun hc => hc.1 hch),
      if_neg (fun hc => hc hch)]

theorem childrenIn_eq_nil_of_leaf {module_list : List Str} {main m : Str}
    (hleaf : isLeaf module_list m = true) :
    childrenIn (module_list ++ find_container_modules module_list main) m
      = [] := by
  unfold isLeaf at hleaf
  simp only [List.all_eq_true, decide_eq_true_eq] at hleaf
  rw [List.eq_nil_iff_forall_not_mem]
  intro x hx
  unfold childrenIn at hx
  rw [List.mem_filter] at hx
  obtain ⟨hxmem, hcond⟩ := hx
  have hpre : (m ++ ['.']).isPrefixOf x = true := by
    simp only [Bool.and_eq_true] at hcond
    exact hcond.1
  rcases List.mem_append.mp hxmem with hxm | hxc
  · exact hleaf x hxm hpre
  · rcases mem_find_container_modules.mp hxc with ⟨-, -, -, hcount⟩
    have hne : (module_list.filter
        (fun m2 => (x ++ ['.']).isPrefixOf m2)) ≠ [] := by
      intro h0
      rw [h0] at hcount
      simp at hcount
    rcases List.exists_mem_of_ne_nil _ hne with ⟨m2, hm2⟩
    have hm2mem : m2 ∈ module_list := (List.mem_filter.mp hm2).1
    have hm2pre : (x ++ ['.']).isPrefixOf m2 = true := by
      simpa using (List.mem_filter.mp hm2).2
    apply hleaf m2 hm2mem
    apply List.isPrefixOf_iff_prefix.mpr
    exact (( List.isPrefixOf_iff_prefix.mp hpre).trans
      (List.prefix_append x ['.'])).trans
      ( List.isPrefixOf_iff_prefix.mp hm2pre)

theorem mem_docOutputs_cases {module_list : List Str} {main : Str}
    {p : Str × List Str} (hp : p ∈ docOutputs module_list main) :
    p.1 ∈ module_list ∧
      docPath (module_list ++ find_container_modules module_list main)
        module_list p.1 = some p.2 := by
  simp only [docOutputs] at hp
  rcases List.mem_filterMap.mp hp with ⟨m, hm, hsome⟩
  rcases Option.map_eq_some'.mp hsome with ⟨pth, hpth, hpe⟩
  rcases List.mem_append.mp hm with hmm | hmc
  · rw [← hpe]
    exact ⟨hmm, by rw [hpth]⟩
  · rw [docPath_container_none hmc] at hpth
    cases hpth

theorem leafPath_getLast? (ps : List Str) :
    (leafPath ps).getLast? = some (ps.getLastD [] ++ ".md".data) :=
  List.getLast?_concat _

theorem leafPath_dropLast (ps : List Str) :
    (leafPath ps).dropLast = ps.dropLast :=
  List.dropLast_concat

theorem md_eq_index {x : Str} (h : x ++ ".md".data = "index.md".data) :
    x = "index".data := by
  have h2 : x ++ ".md".data = "index".data ++ ".md".data := by
    rw [h]
    decide
  exact List.append_cancel_right h2

theorem leafPath_inj {a b : List Str} (ha : ¬a = []) (hb : ¬b = [])
    (h : leafPath a = leafPath b) : a = b := by
  have h1 := congrArg List.dropLast h
  rw [leafPath_dropLast, leafPath_dropLast] at h1
  have h2 := congrArg List.getLast? h
  rw [leafPath_getLast?, leafPath_getLast?] at h2
  have h3 : a.getLastD [] = b.getLastD [] :=
    List.append_cancel_right (Option.some.inj h2)
  rw [eq_dropLast_append_getLastD a [] ha, eq_dropLast_append_getLastD b [] hb,
    h1, h3]

theorem not_index_eq_append {b : List Str} (hb : ¬b = []) :
    ¬(["index.md".data] = b ++ ["index.md".data]) := by
  intro h
  have hlen := congrArg List.length h
  simp only [List.length_append, List.length_cons, List.length_nil] at hlen
  exact hb (List.length_eq_zero.mp (by omega))

theorem not_leaf_eq_indexPath {b : List Str} (hlast : ¬b.getLastD [] =
    "index".data) (a : List Str) :
    ¬(a ++ ["index.md".data] = leafPath b) := by
  intro h
  have h2 := congrArg List.getLast? h
  rw [List.getLast?_concat, leafPath_getLast?] at h2
  exact hlast (md_eq_index (Option.some.inj h2).symm)

/-- Counterexample to claim C1 as stated: in a category `a` containing the
modules `strands.a` and `strands.a.index`, the two distinct modules are both
written to the same output path `index.md` inside the category directory. -/
theorem claim_C1_counterexample :
    ("strands.a".data, ["index.md".data]) ∈
        docOutputs ["strands.a".data, "strands.a.index".data]
          (mainModuleOf "a".data) ∧
      ("strands.a.index".data, ["index.md".data]) ∈
        docOutputs ["strands.a".data, "strands.a.index".data]
          (mainModuleOf "a".data) ∧
      ¬("strands.a".data : Str) = "strands.a.index".data := by
  decide

/-- Claim C1 (amended): for a category processed by `on_pre_build` — its
modules share the two leading dotted components `strands.(category)` and are
pairwise distinct — every leaf module (one with no descendant in the list)
has exactly one doc file generated for it; and provided additionally that no
module's last dotted component is `index`, distinct modules are written to
distinct output paths. -/
theorem claim_C1_docOutputs (module_list : List Str) (cat : Str)
    (hnd : module_list.Nodup)
    (hshape : ∀ m ∈ module_list,
      (splitOnDot m).take 2 = ["strands".data, cat])
    (hnoidx : ∀ m ∈ module_list, ¬lastName m = "index".data) :
    (∀ m ∈ module_list, isLeaf module_list m = true →
      (docOutputs module_list (mainModuleOf cat)).countP
        (fun p => decide (p.1 = m)) = 1) ∧
    (∀ p ∈ docOutputs module_list (mainModuleOf cat),
      ∀ q ∈ docOutputs module_list (mainModuleOf cat),
        ¬p.1 = q.1 → ¬p.2 = q.2) := by
  constructor
  · intro m hm hleaf
    have hch := @childrenIn_eq_nil_of_leaf module_list (mainModuleOf cat) m
      hleaf
    have hpath := @docPath_of_no_children
      (module_list ++ find_container_modules module_list (mainModuleOf cat))
      module_list m hch
    have hcount : (docOutputs module_list (mainModuleOf cat)).countP
        (fun p => decide (p.1 = m)) =
        (module_list ++
          find_container_modules module_list (mainModuleOf cat)).countP
          (fun x => decide (x = m) &&
            (docPath (module_list ++ find_container_modules module_list
              (mainModuleOf cat)) module_list x).isSome) := by
      simp only [docOutputs]
      exact countP_filterMap_pair _ _ m
    have hfun : (fun x => decide (x = m) &&
        (docPath (module_list ++ find_container_modules module_list
          (mainModuleOf cat)) module_list x).isSome) =
        (fun x => decide (x = m)) := by
      funext x
      by_cases hx : x = m
      · subst hx
        rw [hpath]
        simp
      · simp [hx]
    rw [hcount, hfun, List.countP_append, countP_eq_one_of_nodup hnd hm]
    have hc0 : (find_container_modules module_list
        (mainModuleOf cat)).countP (fun x => decide (x = m)) = 0 :=
      List.countP_eq_zero.mpr (fun c hcmem hcp =>
        (mem_find_container_modules.mp hcmem).2.2.1
          ((decide_eq_true_eq.mp hcp) ▸ hm))
    rw [hc0]
  · intro p hp q hq hne heq
    obtain ⟨hp1, hp2⟩ := mem_docOutputs_cases hp
    obtain ⟨hq1, hq2⟩ := mem_docOutputs_cases hq
    have hsplit1 := List.take_append_drop 2 (splitOnDot p.1)
    rw [hshape p.1 hp1] at hsplit1
    have hsplit2 := List.take_append_drop 2 (splitOnDot q.1)
    rw [hshape q.1 hq1] at hsplit2
    have hdrop : ¬(splitOnDot p.1).drop 2 = (splitOnDot q.1).drop 2 := by
      intro hd
      apply hne
      apply splitOnDot_inj
      rw [← hsplit1, ← hsplit2, hd]
    have hlen1 : (splitOnDot p.1).length =
        2 + ((splitOnDot p.1).drop 2).length := by
      conv_lhs => rw [← hsplit1]
      simp only [List.length_append, List.length_cons, List.length_nil]
    have hlen2 : (splitOnDot q.1).length =
        2 + ((splitOnDot q.1).drop 2).length := by
      conv_lhs => rw [← hsplit2]
      simp only [List.length_append, List.length_cons, List.length_nil]
    have hlast1 : ¬(splitOnDot p.1).drop 2 = [] →
        ¬((splitOnDot p.1).drop 2).getLastD [] = "index".data := by
      intro hne2 hcontra
      apply hnoidx p.1 hp1
      unfold lastName
      conv_lhs => rw [← hsplit1]
      rw [getLastD_append_right _ _ _ hne2]
      exact hcontra
    have hlast2 : ¬(splitOnDot q.1).drop 2 = [] →
        ¬((splitOnDot q.1).drop 2).getLastD [] = "index".data := by
      intro hne2 hcontra
      apply hnoidx q.1 hq1
      unfold lastName
      conv_lhs => rw [← hsplit2]
      rw [getLastD_append_right _ _ _ hne2]
      exact hcontra
    rcases docPath_form hp2 with ⟨hA1, hpa⟩ | ⟨hB1, -, hpa⟩ | ⟨hC1, -, hpa⟩ <;>
      rcases docPath_form hq2 with ⟨hA2, hqa⟩ | ⟨hB2, -, hqa⟩ |
        ⟨hC2, -, hqa⟩ <;>
      rw [hpa, hqa] at heq
    · have ha0 : (splitOnDot p.1).drop 2 = [] :=
        List.length_eq_zero.mp (by omega)
      have hb0 : (splitOnDot q.1).drop 2 = [] :=
        List.length_eq_zero.mp (by omega)
      exact hdrop (ha0.trans hb0.symm)
    · have hbne : ¬(splitOnDot q.1).drop 2 = [] := fun h0 => hB2 (by
        rw [hlen2, h0]
        simp)
      exact not_index_eq_append hbne heq
    · have hbne : ¬(splitOnDot q.1).drop 2 = [] := fun h0 => hC2 (by
        rw [hlen2, h0]
        simp)
      exact not_leaf_eq_indexPath (hlast2 hbne) [] (by simpa using heq)
    · have hane : ¬(splitOnDot p.1).drop 2 = [] := fun h0 => hB1 (by
        rw [hlen1, h0]
        simp)
      exact not_index_eq_append hane heq.symm
    · exact hdrop (List.append_cancel_right heq)
    · have hbne : ¬(splitOnDot q.1).drop 2 = [] := fun h0 => hC2 (by
        rw [hlen2, h0]
        simp)
      exact not_leaf_eq_indexPath (hlast2 hbne) _ heq
    · have hane : ¬(splitOnDot p.1).drop 2 = [] := fun h0 => hC1 (by
        rw [hlen1, h0]
        simp)
      exact not_leaf_eq_indexPath (hlast1 hane) [] (by simpa using heq.symm)
    · have hane : ¬(splitOnDot p.1).drop 2 = [] := fun h0 => hC1 (by
        rw [hlen1, h0]
        simp)
      exact not_leaf_eq_indexPath (hlast1 hane) _ heq.symm
    · have hane : ¬(splitOnDot p.1).drop 2 = [] := fun h0 => hC1 (by
        rw [hlen1, h0]
        simp)
      have hbne : ¬(splitOnDot q.1).drop 2 = [] := fun h0 => hC2 (by
        rw [hlen2, h0]
        simp)
      exact hdrop (leafPath_inj hane hbne heq)

/-- Witness for the amended claim C1 at a concrete category with two leaf
modules. -/
theorem claim_C1_witness :
    (docOutputs ["strands.a.b".data, "strands.a.c".data]
      (mainModuleOf "a".data)).countP
        (fun p => decide (p.1 = "strands.a.b".data)) = 1 :=
  (claim_C1_docOutputs ["strands.a.b".data, "strands.a.c".data] "a".data
    (by decide) (by decide) (by decide)).1 "strands.a.b".data (by decide)
    (by decide)
